import Mathlib

/-!
Verification development for the raggedy documentation Q&A pipeline.

Text is modelled as List Char. JavaScript regular-expression matching for the
two heading patterns, JSON.parse, String.prototype.trim, Array.prototype
filter/slice/includes and the cost table are embedded as executable Lean
functions, translated from src/main.ts, src/raggedy-ts/main.ts and the unnamed
source parts. JavaScript numbers are modelled as exact rationals.
-/

set_option maxHeartbeats 1000000

/-- Character class of the JavaScript whitespace set, as matched by the regex
class backslash-s and stripped by String.prototype.trim. -/
def jsWs (c : Char) : Bool :=
  c == ' ' || c == '\t' || c == '\n' || c == '\r' || c == '\x0b' || c == '\x0c' ||
  c == '\u00A0' || c == '\u1680' ||
  (decide (0x2000 ≤ c.toNat) && decide (c.toNat ≤ 0x200A)) ||
  c == '\u2028' || c == '\u2029' || c == '\u202F' || c == '\u205F' ||
  c == '\u3000' || c == '\uFEFF'

/-- Model of String.prototype.trim: strip leading and trailing whitespace. -/
def trimJS (l : List Char) : List Char :=
  ((l.dropWhile jsWs).reverse.dropWhile jsWs).reverse

/-- Lines of a text, in the sense of String.prototype.split on the newline
character (used only to state the spec level claim that headings are lines). -/
def linesOf : List Char → List (List Char)
  | [] => [[]]
  | c :: rest =>
    let r := linesOf rest
    if c == '\n' then [] :: r
    else
      match r with
      | [] => [[c]]
      | x :: xs => (c :: x) :: xs

/-- One attempt of the heading regex (caret, one or more marker characters,
one or more whitespace characters, then any characters up to the end of the
line) at a line start. Greedy semantics of the JavaScript engine: the marker
run, the whitespace run and the rest-of-line run are all maximal. Returns the
matched text and the remaining input (which starts at the newline the dot
stopped at, or is empty). -/
def matchAt (m : Char) (s : List Char) : Option (List Char × List Char) :=
  let marks := s.takeWhile (fun c => c == m)
  let s1 := s.dropWhile (fun c => c == m)
  let ws := s1.takeWhile jsWs
  let s2 := s1.dropWhile jsWs
  let line := s2.takeWhile (fun c => !(c == '\n'))
  let s3 := s2.dropWhile (fun c => !(c == '\n'))
  if marks.isEmpty || ws.isEmpty then none
  else some (marks ++ (ws ++ line), s3)

/-- Global scan of the multiline heading regex over the whole content: try the
pattern at each line start, collect every match in document order. Fuel makes
the recursion structural; every step consumes at least one character, so fuel
equal to the length of the input plus one is always sufficient. -/
def scanHeadsF (m : Char) : Nat → List Char → List (List Char)
  | 0, _ => []
  | fuel + 1, s =>
    match matchAt m s with
    | some (t, r) => t :: scanHeadsF m fuel r.tail
    | none =>
      match s with
      | [] => []
      | _ :: _ => scanHeadsF m fuel ((s.dropWhile (fun c => !(c == '\n'))).tail)

/-- Model of content.match(headingPattern), with each match trimmed, as in
getIndex. -/
def matchHeadings (m : Char) (content : List Char) : List (List Char) :=
  (scanHeadsF m (content.length + 1) content).map trimJS

/-- Document record produced by the Corpus Indexer (interface Doc in the
sources). Headings are kept as the list of trimmed matches, as in
src/raggedy-ts/main.ts; src/main.ts additionally joins them with newlines,
which is recovered by joinedHeadings below. -/
structure Doc where
  relPath : List Char
  content : List Char
  head : List Char
  headings : List (List Char)
deriving DecidableEq

/-- Extension dispatch of getIndex: path.endsWith(".adoc"). -/
def isAdocPath (path : List Char) : Bool :=
  ".adoc".toList.isSuffixOf path

/-- Per-file body of getIndex (src/raggedy-ts/main.ts lines 14-20, same in
src/main.ts lines 370-377 with a budget of 500): choose the heading pattern by
extension, extract trimmed heading matches, take the first 500 characters as
the head. -/
def mkDoc (path relPath content : List Char) : Doc :=
  { relPath := relPath
    content := content
    head := content.take 500
    headings := matchHeadings (if isAdocPath path then '=' else '#') content }

/-- Headings joined with newlines, as stored in the Doc records of
src/main.ts. -/
def joinedHeadings (hs : List (List Char)) : List Char :=
  List.intercalate ['\n'] hs

/-- Tag-delimited outline block of one document, the Outline Encoder
(outlineXml, src/main.ts lines 28-35, after dedent). The full path field is the
result of the external resolve call and is passed in as a parameter. -/
def outlineXml (doc : Doc) (fullPath : List Char) : List Char :=
  "<document>\n  <path>".toList ++ doc.relPath ++
  "</path>\n  <fullPath>".toList ++ fullPath ++
  "</fullPath>\n  <sections>".toList ++ joinedHeadings doc.headings ++
  "</sections>\n  <head>".toList ++ doc.head ++
  "</head>\n</document>".toList

/-- Suffix of the input that follows the first occurrence of the pattern, or
none when the pattern does not occur. -/
def afterFirst (pat : List Char) : List Char → Option (List Char)
  | [] => none
  | c :: rest =>
    if pat.isPrefixOf (c :: rest) then some ((c :: rest).drop pat.length)
    else afterFirst pat rest

/-- Text strictly before the first occurrence of the pattern, or none when the
pattern does not occur. -/
def beforeFirst (pat : List Char) : List Char → Option (List Char)
  | [] => none
  | c :: rest =>
    if pat.isPrefixOf (c :: rest) then some []
    else (beforeFirst pat rest).map (fun t => c :: t)

/-- Modelled from the spec: the round-trip extraction that reads the text
between the first opening path tag and the following closing path tag of a
rendered block (the spec states the round trip as a testable property; no
extractor exists in the sources, where the block is consumed by the model). -/
def extractPathTag (block : List Char) : Option (List Char) :=
  match afterFirst ("<path>".toList) block with
  | none => none
  | some r => beforeFirst ("</path>".toList) r

/-- Model identifiers with a row in the price table of src/main.ts lines
341-354 (same table in the unnamed part at lines 111-124). -/
inductive Model where
  | haiku35
  | sonnet
deriving DecidableEq

/-- Per-token rates of one model, USD per token (the source stores the
per-million figure divided by M = 1000000). -/
structure Prices where
  input : ℚ
  output : ℚ
  cacheRead : ℚ
  cacheWrite : ℚ

/-- Static per-model price table (src/main.ts lines 341-354). -/
def prices : Model → Prices
  | Model.haiku35 =>
    { input := 1 / 1000000
      output := 5 / 1000000
      cacheRead := 0.1 / 1000000
      cacheWrite := 1.25 / 1000000 }
  | Model.sonnet =>
    { input := 3 / 1000000
      output := 15 / 1000000
      cacheRead := 0.3 / 1000000
      cacheWrite := 3.75 / 1000000 }

/-- Usage record reported by the API: input and output token counts are always
present, cache counters are optional (the source guards them with a
logical-or-zero). -/
structure Usage where
  input_tokens : Nat
  output_tokens : Nat
  cache_read_input_tokens : Option Nat
  cache_creation_input_tokens : Option Nat
deriving DecidableEq

/-- Cost of one call (getCost, src/main.ts lines 358-366; identical in the
unnamed part at lines 128-136). -/
def getCost (model : Model) (usage : Usage) : ℚ :=
  let p := prices model
  p.input * usage.input_tokens +
  p.output * usage.output_tokens +
  p.cacheRead * (usage.cache_read_input_tokens.getD 0) +
  p.cacheWrite * (usage.cache_creation_input_tokens.getD 0)

/-- Document selection of retrieve (src/main.ts lines 440-446): keep the corpus
documents whose relative path occurs in the parsed path list, in corpus order,
and truncate to the first four. -/
def selectedDocs (index : List Doc) (paths : List (List Char)) : List Doc :=
  (index.filter (fun doc => paths.contains doc.relPath)).take 4

/-- Model calls the pipeline can issue. -/
inductive Call where
  | selector (index : List Doc)
  | answer (docs : List Doc)
deriving DecidableEq

/-- Model-call trace of the main block (src/main.ts lines 482-502): retrieve is
always invoked on the full index, then getAnswer is always invoked on the
selected documents; there is no branch on corpus size or on an empty
selection. The path list the selector model returned is a parameter. -/
def mainCalls (index : List Doc) (paths : List (List Char)) : List Call :=
  [Call.selector index, Call.answer (selectedDocs index paths)]

/-- Summed character length of all document contents, the quantity named by
the router clause of the spec (no corresponding code exists in the sources). -/
def totalContentLen (index : List Doc) : Nat :=
  (index.map (fun d => d.content.length)).sum

/-- Whitespace skipped by JSON.parse between tokens (the four JSON whitespace
characters). -/
def jsonWs (c : Char) : Bool :=
  c == ' ' || c == '\t' || c == '\n' || c == '\r'

/-- Parsed JSON values. Numbers keep their lexeme (the pipeline never uses
numeric values, only compares elements against path strings). -/
inductive Json where
  | null
  | bool (b : Bool)
  | num (lexeme : List Char)
  | str (s : List Char)
  | arr (elems : List Json)
  | obj (members : List (List Char × Json))

/-- Value of a hexadecimal digit. -/
def hexDigit (c : Char) : Option Nat :=
  if '0' ≤ c ∧ c ≤ '9' then some (c.toNat - 48)
  else if 'a' ≤ c ∧ c ≤ 'f' then some (c.toNat - 87)
  else if 'A' ≤ c ∧ c ≤ 'F' then some (c.toNat - 55)
  else none

/-- String body parser, positioned after the opening quote. Handles the JSON
escapes and rejects raw control characters, as JSON.parse does. A
backslash-u escape denoting a lone surrogate is clamped by Char.ofNat; no
claim touches that case. Fuel makes the recursion structural. -/
def pStrF : Nat → List Char → Option (List Char × List Char)
  | 0, _ => none
  | _, [] => none
  | fuel + 1, c :: rest =>
    if c == '"' then some ([], rest)
    else if c == '\\' then
      match rest with
      | [] => none
      | e :: rest2 =>
        let cont := fun (ch : Char) (rem : List Char) =>
          (pStrF fuel rem).map (fun p => (ch :: p.1, p.2))
        if e == '"' then cont '"' rest2
        else if e == '\\' then cont '\\' rest2
        else if e == '/' then cont '/' rest2
        else if e == 'b' then cont '\x08' rest2
        else if e == 'f' then cont '\x0c' rest2
        else if e == 'n' then cont '\n' rest2
        else if e == 'r' then cont '\r' rest2
        else if e == 't' then cont '\t' rest2
        else if e == 'u' then
          match rest2 with
          | h1 :: h2 :: h3 :: h4 :: rest3 =>
            match hexDigit h1, hexDigit h2, hexDigit h3, hexDigit h4 with
            | some a, some b, some c2, some d =>
              cont (Char.ofNat (((a * 16 + b) * 16 + c2) * 16 + d)) rest3
            | _, _, _, _ => none
          | _ => none
        else none
    else if decide (c.toNat < 32) then none
    else (pStrF fuel rest).map (fun p => (c :: p.1, p.2))

/-- Optional fraction part of a JSON number. -/
def pFrac : List Char → Option (List Char × List Char)
  | [] => some ([], [])
  | c :: r =>
    if c == '.' then
      let ds := r.takeWhile Char.isDigit
      if ds.isEmpty then none
      else some ('.' :: ds, r.dropWhile Char.isDigit)
    else some ([], c :: r)

/-- Optional exponent part of a JSON number. -/
def pExp : List Char → Option (List Char × List Char)
  | [] => some ([], [])
  | c :: r =>
    if c == 'e' || c == 'E' then
      let sr :=
        match r with
        | [] => (([] : List Char), ([] : List Char))
        | s0 :: r0 => if s0 == '+' || s0 == '-' then ([s0], r0) else ([], s0 :: r0)
      let ds := sr.2.takeWhile Char.isDigit
      if ds.isEmpty then none
      else some (c :: (sr.1 ++ ds), sr.2.dropWhile Char.isDigit)
    else some ([], c :: r)

/-- JSON number parser, per the JSON grammar: optional minus, integer part
with no leading zero, optional fraction, optional exponent. Returns the
lexeme. -/
def pNum (s : List Char) : Option (List Char × List Char) :=
  let ns :=
    match s with
    | [] => (([] : List Char), ([] : List Char))
    | c :: r => if c == '-' then ([c], r) else ([], c :: r)
  match ns.2 with
  | [] => none
  | c :: r =>
    if !c.isDigit then none
    else
      let ip :=
        if c == '0' then (([c] : List Char), r)
        else ((c :: r).takeWhile Char.isDigit, (c :: r).dropWhile Char.isDigit)
      match pFrac ip.2 with
      | none => none
      | some (fp, s3) =>
        match pExp s3 with
        | none => none
        | some (ep, s4) => some (ns.1 ++ ip.1 ++ fp ++ ep, s4)

mutual

/-- JSON value parser: skip whitespace and dispatch on the first character, as
JSON.parse does. Fuel makes the mutual recursion structural; the top-level
entry point supplies enough fuel for any input. -/
def pValueF : Nat → List Char → Option (Json × List Char)
  | 0, _ => none
  | fuel + 1, s =>
    match s.dropWhile jsonWs with
    | [] => none
    | c :: r =>
      if c == '[' then
        match r.dropWhile jsonWs with
        | ']' :: r2 => some (Json.arr [], r2)
        | _ =>
          match pElemsF fuel r with
          | some (es, r2) => some (Json.arr es, r2)
          | none => none
      else if c == '{' then
        match r.dropWhile jsonWs with
        | '}' :: r2 => some (Json.obj [], r2)
        | _ =>
          match pMembersF fuel r with
          | some (ms, r2) => some (Json.obj ms, r2)
          | none => none
      else if c == '"' then
        match pStrF (r.length + 1) r with
        | some (t, r2) => some (Json.str t, r2)
        | none => none
      else if c == 't' then
        match r with
        | 'r' :: 'u' :: 'e' :: r2 => some (Json.bool true, r2)
        | _ => none
      else if c == 'f' then
        match r with
        | 'a' :: 'l' :: 's' :: 'e' :: r2 => some (Json.bool false, r2)
        | _ => none
      else if c == 'n' then
        match r with
        | 'u' :: 'l' :: 'l' :: r2 => some (Json.null, r2)
        | _ => none
      else
        match pNum (c :: r) with
        | some (lex, r2) => some (Json.num lex, r2)
        | none => none

/-- Comma-separated array elements, ending at a closing bracket. -/
def pElemsF : Nat → List Char → Option (List Json × List Char)
  | 0, _ => none
  | fuel + 1, s =>
    match pValueF fuel s with
    | none => none
    | some (v, r) =>
      match r.dropWhile jsonWs with
      | ',' :: r2 =>
        match pElemsF fuel r2 with
        | some (vs, r3) => some (v :: vs, r3)
        | none => none
      | ']' :: r2 => some ([v], r2)
      | _ => none

/-- Comma-separated object members, ending at a closing brace. -/
def pMembersF : Nat → List Char → Option (List (List Char × Json) × List Char)
  | 0, _ => none
  | fuel + 1, s =>
    match s.dropWhile jsonWs with
    | '"' :: r =>
      match pStrF (r.length + 1) r with
      | none => none
      | some (key, r2) =>
        match r2.dropWhile jsonWs with
        | ':' :: r3 =>
          match pValueF fuel r3 with
          | none => none
          | some (v, r4) =>
            match r4.dropWhile jsonWs with
            | ',' :: r5 =>
              match pMembersF fuel r5 with
              | some (ms, r6) => some ((key, v) :: ms, r6)
              | none => none
            | '}' :: r5 => some ([(key, v)], r5)
            | _ => none
        | _ => none
    | _ => none

end

/-- Model of JSON.parse applied to a whole text (the parse step of retrieve,
src/main.ts line 440): the entire input, minus surrounding JSON whitespace,
must be one well-formed JSON value; otherwise the call throws, modelled as
none. -/
def jsParse (s : List Char) : Option Json :=
  match pValueF (2 * s.length + 2) s with
  | some (v, r) => if (r.dropWhile jsonWs).isEmpty then some v else none
  | none => none

/-- Full retrieve document resolution (src/main.ts lines 440-446): parse the
raw model response with JSON.parse, then filter the index by membership of the
relative path in the parsed array. Elements of the parsed array that are not
strings can never equal a path string under the includes comparison, so they
are dropped here. A parse failure or a non-array result makes the invocation
throw, modelled as none. -/
def retrieveDocs (index : List Doc) (content : List Char) : Option (List Doc) :=
  match jsParse content with
  | some (Json.arr es) =>
    some (selectedDocs index (es.filterMap (fun e =>
      match e with
      | Json.str t => some t
      | _ => none)))
  | _ => none

/-! Concrete documents used by witnesses and counterexamples. -/

/-- Small markdown document with path a.md. -/
def docA : Doc :=
  { relPath := "a.md".toList, content := "alpha".toList,
    head := "alpha".toList, headings := [] }

/-- Small markdown document with path b.md. -/
def docB : Doc :=
  { relPath := "b.md".toList, content := "beta".toList,
    head := "beta".toList, headings := [] }

/-- Document with empty content. -/
def docEmpty : Doc :=
  { relPath := "a.md".toList, content := [], head := [], headings := [] }

/-- Right-associated tail of the rendered outline block after the relative
path. -/
def outlineRest (doc : Doc) (fullPath : List Char) : List Char :=
  "</path>\n  <fullPath>".toList ++ (fullPath ++
    ("</fullPath>\n  <sections>".toList ++ (joinedHeadings doc.headings ++
      ("</sections>\n  <head>".toList ++ (doc.head ++ "</head>\n</document>".toList)))))

/-- Document whose relative path contains the closing path tag: a directory
named a-then-less-than containing a file named path-greater-than-b.md. -/
def docBad : Doc :=
  { relPath := "a</path>b.md".toList, content := [], head := [], headings := [] }

/-! Helper lemmas shared between claims. -/

/-- Membership-extensional lists agree on contains. -/
theorem contains_eq_of_mem_iff {l₁ l₂ : List (List Char)} {a : List Char}
    (h : a ∈ l₁ ↔ a ∈ l₂) : l₁.contains a = l₂.contains a := by
  by_cases hm : a ∈ l₁
  · have h1 : l₁.contains a = true := by
      simpa [List.contains] using List.elem_iff.mpr hm
    have h2 : l₂.contains a = true := by
      simpa [List.contains] using List.elem_iff.mpr (h.mp hm)
    rw [h1, h2]
  · have h1 : l₁.contains a = false := by
      simp only [List.contains]
      exact Bool.eq_false_iff.mpr (fun hc => hm (List.elem_iff.mp hc))
    have h2 : l₂.contains a = false := by
      simp only [List.contains]
      exact Bool.eq_false_iff.mpr (fun hc => (hm (h.mpr (List.elem_iff.mp hc))))
    rw [h1, h2]

/-- Selected documents are a sublist of the corpus. -/
theorem selectedDocs_sublist (index : List Doc) (paths : List (List Char)) :
    List.Sublist (selectedDocs index paths) index :=
  (List.take_sublist 4 _).trans (List.filter_sublist index)

/-- Two path lists that agree on membership select the same documents. -/
theorem selectedDocs_congr {paths paths2 : List (List Char)} (index : List Doc)
    (h : ∀ a : List Char, a ∈ paths ↔ a ∈ paths2) :
    selectedDocs index paths = selectedDocs index paths2 := by
  unfold selectedDocs
  exact congrArg _ (List.filter_congr (fun d _ => contains_eq_of_mem_iff (h d.relPath)))

/-! Claim C1: cost accounting. -/

/-- C1 (counterexample): for the sonnet price row and the usage of the claim
(1000 input, 200 output, 500 cache read, 0 cache write), getCost yields
0.00615, not the claimed 0.00465: the code does not subtract cache reads from
the input tokens. -/
theorem getCost_example_c1_cx :
    getCost Model.sonnet
        { input_tokens := 1000, output_tokens := 200,
          cache_read_input_tokens := some 500,
          cache_creation_input_tokens := some 0 } = 123 / 20000 ∧
    (123 / 20000 : ℚ) ≠ 465 / 100000 := by
  constructor
  · norm_num [getCost, prices]
  · norm_num

/-- C1 (amended): for every usage record, the cost is the per-million rate of
the price table times the full input token count, with no cache-read
subtraction, plus the output, cache-read and cache-write terms; on the usage of
the claim the sonnet row gives 0.00615. -/
theorem getCost_formula_c1 : ∀ u : Usage,
    getCost Model.haiku35 u =
      ((1 : ℚ) * u.input_tokens + 5 * u.output_tokens +
        (1 / 10) * (u.cache_read_input_tokens.getD 0) +
        (5 / 4) * (u.cache_creation_input_tokens.getD 0)) / 1000000 ∧
    getCost Model.sonnet u =
      ((3 : ℚ) * u.input_tokens + 15 * u.output_tokens +
        (3 / 10) * (u.cache_read_input_tokens.getD 0) +
        (15 / 4) * (u.cache_creation_input_tokens.getD 0)) / 1000000 ∧
    getCost Model.sonnet
        { input_tokens := 1000, output_tokens := 200,
          cache_read_input_tokens := some 500,
          cache_creation_input_tokens := some 0 } = 615 / 100000 := by
  intro u
  refine ⟨?_, ?_, ?_⟩ <;>
  · simp only [getCost, prices]
    push_cast
    norm_num
    try ring

/-! Claim C7: heading extraction by extension. -/

/-- C7: headings come from the extension-selected pattern (equals signs for
adoc, hash marks for markdown), trimmed, in document order; the two documents
of the claim yield exactly the claimed headings, and each pattern ignores the
other format. -/
theorem headings_by_extension_c7 :
    (mkDoc ("a.md".toList) ("a.md".toList) ("# Title\nfoo".toList)).headings
      = ["# Title".toList] ∧
    (mkDoc ("b.adoc".toList) ("b.adoc".toList) ("= Title\nbar".toList)).headings
      = ["= Title".toList] ∧
    (mkDoc ("a.md".toList) ("a.md".toList) ("= Title\nbar".toList)).headings = [] ∧
    (mkDoc ("b.adoc".toList) ("b.adoc".toList) ("# Title\nfoo".toList)).headings = [] ∧
    (mkDoc ("a.md".toList) ("a.md".toList) ("# One \nx\n## Two\ny".toList)).headings
      = ["# One".toList, "## Two".toList] :=
  ⟨by decide, by decide, by decide, by decide, by decide⟩

/-! Claim C5: bounded selection from the corpus. -/

/-- C5: the selection never exceeds four documents, every selected document is
a document of the input corpus, and dropping the paths that match no corpus
document leaves the selection unchanged (unmatched paths are silently
ignored). -/
theorem selectedDocs_bounded_c5 (index : List Doc) (paths : List (List Char)) :
    (selectedDocs index paths).length ≤ 4 ∧
    (∀ d ∈ selectedDocs index paths, d ∈ index) ∧
    selectedDocs index
        (paths.filter (fun p => index.any (fun d => d.relPath == p)))
      = selectedDocs index paths := by
  refine ⟨?_, ?_, ?_⟩
  · simp only [selectedDocs, List.length_take]
    exact min_le_left _ _
  · intro d hd
    exact (selectedDocs_sublist index paths).subset hd
  · unfold selectedDocs
    refine congrArg _ (List.filter_congr ?_)
    intro d hd
    apply contains_eq_of_mem_iff
    constructor
    · intro hmem
      exact (List.mem_filter.mp hmem).1
    · intro hmem
      exact List.mem_filter.mpr ⟨hmem, List.any_eq_true.mpr ⟨d, hd, by simp⟩⟩

/-! Claim C2: selection order. -/

/-- C2 (counterexample): with corpus order a.md before b.md and a model path
list ranking b.md first, retrieve returns the documents in corpus order, not
in the order of the model list. -/
theorem selectedDocs_order_c2_cx :
    selectedDocs [docA, docB] ["b.md".toList, "a.md".toList] = [docA, docB] ∧
    ([docA, docB] : List Doc) ≠ [docB, docA] :=
  ⟨by decide, by decide⟩

/-- C2 (amended): the selection is a sublist of the corpus, so it appears in
corpus input order, and it is invariant under any permutation of the model
path list: the model ranking acts only as a membership filter and never
influences the order. -/
theorem selectedDocs_order_c2 (index : List Doc) (paths paths2 : List (List Char))
    (h : List.Perm paths paths2) :
    selectedDocs index paths = selectedDocs index paths2 ∧
    List.Sublist (selectedDocs index paths) index :=
  ⟨selectedDocs_congr index (fun _ => h.mem_iff),
   selectedDocs_sublist index paths⟩

/-- C2 (witness): the amended theorem applied to the two-document corpus and
the swapped path lists. -/
theorem selectedDocs_order_c2_witness :
    selectedDocs [docA, docB] ["a.md".toList, "b.md".toList]
      = selectedDocs [docA, docB] ["b.md".toList, "a.md".toList] ∧
    List.Sublist (selectedDocs [docA, docB] ["a.md".toList, "b.md".toList])
      [docA, docB] :=
  selectedDocs_order_c2 [docA, docB] _ _
    (List.Perm.swap ("b.md".toList) ("a.md".toList) [])

/-! Claim C3: no short-circuit on empty selection. -/

/-- C3 (counterexample): a path list matching no corpus document yields an
empty selection, yet the answer call is still issued (with an empty document
list); the pipeline does not short-circuit. -/
theorem answer_called_on_empty_c3_cx :
    selectedDocs [docA] ["zzz.md".toList] = [] ∧
    Call.answer [] ∈ mainCalls [docA] ["zzz.md".toList] :=
  ⟨by decide, by decide⟩

/-- C3 (amended): whenever the selection is empty, the Answer Generator is
nevertheless invoked, with an empty document list; no empty-selection
short-circuit and no no-relevant-documents outcome exist in the code. -/
theorem answer_called_on_empty_c3 (index : List Doc) (paths : List (List Char))
    (h : selectedDocs index paths = []) :
    Call.answer [] ∈ mainCalls index paths := by
  simp [mainCalls, h]

/-- C3 (witness): the amended theorem applied to a singleton corpus and an
unmatched path. -/
theorem answer_called_on_empty_c3_witness :
    Call.answer [] ∈ mainCalls [docA] ["zzz.md".toList] :=
  answer_called_on_empty_c3 [docA] ["zzz.md".toList] (by decide)

/-! Claim C6: no size-based routing. -/

/-- C6 (counterexample): even a corpus whose summed content length is zero,
which is at or below any fixed threshold, is sent through the Relevance
Selector; the full-corpus route does not exist. -/
theorem selector_always_called_c6_cx :
    totalContentLen [docEmpty] = 0 ∧
    Call.selector [docEmpty] ∈ mainCalls [docEmpty] [] :=
  ⟨by decide, by decide⟩

/-- C6 (amended): for every corpus, regardless of its summed content length,
the pipeline issues the selector call on the whole index and then the answer
call on the selected documents; there is no size threshold and no full-corpus
mode. -/
theorem selector_always_called_c6 (index : List Doc) (paths : List (List Char)) :
    Call.selector index ∈ mainCalls index paths ∧
    Call.answer (selectedDocs index paths) ∈ mainCalls index paths := by
  simp [mainCalls]

/-! Claim C10: no duplicate documents in the selection. -/

/-- C10: when the corpus has pairwise distinct relative paths, the selection
has no duplicate documents, and a duplicated path in the model list does not
change the selection. -/
theorem selectedDocs_nodup_c10 (index : List Doc) (paths : List (List Char))
    (p : List Char) (h : (index.map Doc.relPath).Nodup) :
    (selectedDocs index paths).Nodup ∧
    selectedDocs index (p :: p :: paths) = selectedDocs index (p :: paths) := by
  constructor
  · exact List.Nodup.sublist (selectedDocs_sublist index paths)
      (List.Nodup.of_map Doc.relPath h)
  · apply selectedDocs_congr index
    intro a
    simp [List.mem_cons]

/-- C10 (witness): the theorem applied to the two-document corpus, whose
relative paths are distinct, and a duplicated path a.md. -/
theorem selectedDocs_nodup_c10_witness :
    (selectedDocs [docA, docB] ["a.md".toList]).Nodup ∧
    selectedDocs [docA, docB] ("a.md".toList :: "a.md".toList :: []) =
      selectedDocs [docA, docB] ("a.md".toList :: []) :=
  selectedDocs_nodup_c10 [docA, docB] ["a.md".toList] ("a.md".toList) (by decide)

/-- C5 (witness): the cap and the membership conclusion at a concrete corpus
and path list. -/
theorem selectedDocs_bounded_c5_witness :
    (selectedDocs [docA, docB] ["b.md".toList]).length ≤ 4 ∧ docB ∈ [docA, docB] :=
  ⟨(selectedDocs_bounded_c5 [docA, docB] ["b.md".toList]).1,
   (selectedDocs_bounded_c5 [docA, docB] ["b.md".toList]).2.1 docB (by decide)⟩

/-! Claim C4: response parsing. -/

/-- C4 (counterexample): on the response of the claim, which wraps a JSON
array in prose, the parse step of retrieve fails instead of extracting the
array: JSON.parse is applied to the whole response and there is no
array-substring search. -/
theorem jsParse_prose_c4_cx :
    jsParse ("Sure! [\"a.md\", \"b.md\"] done.".toList) = none ∧
    retrieveDocs [docA, docB] ("Sure! [\"a.md\", \"b.md\"] done.".toList) = none :=
  ⟨rfl, rfl⟩

/-- C4 (amended): the parse step applies JSON.parse to the entire raw
response: a response that is exactly a JSON array of strings parses to exactly
those paths and resolves against the corpus, any response starting with a
letter such as the quoted prose example fails with a thrown parse error, and
no substring extraction is attempted. -/
theorem jsParse_whole_c4 :
    (∀ s : List Char, jsParse ('S' :: s) = none) ∧
    jsParse ("[\"a.md\", \"b.md\"]".toList) =
      some (Json.arr [Json.str ("a.md".toList), Json.str ("b.md".toList)]) ∧
    retrieveDocs [docA, docB] ("[\"a.md\", \"b.md\"]".toList) = some [docA, docB] :=
  ⟨fun _ => rfl, rfl, rfl⟩

/-! Claim C9: indexer invariants. -/

/-- Decomposition of a successful heading match: the match followed by the
rest reassembles the input. -/
theorem matchAt_eq {m : Char} {s t r : List Char}
    (h : matchAt m s = some (t, r)) : s = t ++ r := by
  simp only [matchAt] at h
  split at h
  · exact absurd h (by simp)
  · simp only [Option.some.injEq, Prod.mk.injEq] at h
    obtain ⟨h1, h2⟩ := h
    subst h1
    subst h2
    rw [List.append_assoc, List.append_assoc,
      List.takeWhile_append_dropWhile (fun c => !(c == '\n'))
        ((s.dropWhile (fun c => c == m)).dropWhile jsWs),
      List.takeWhile_append_dropWhile jsWs (s.dropWhile (fun c => c == m)),
      List.takeWhile_append_dropWhile (fun c => c == m) s]

/-- Contiguity is preserved along a suffix. -/
theorem infixOfSuffix {t x y : List Char} (h1 : t <:+: x) (h2 : x <:+ y) :
    t <:+: y := by
  obtain ⟨u, v, hx⟩ := h1
  obtain ⟨w, hy⟩ := h2
  refine ⟨w ++ u, v, ?_⟩
  rw [← hy, ← hx]
  simp [List.append_assoc]

/-- Every match the global scan collects is a contiguous segment of the
input. -/
theorem infix_of_mem_scanHeadsF (m : Char) :
    ∀ (fuel : Nat) (s t : List Char), t ∈ scanHeadsF m fuel s → t <:+: s := by
  intro fuel
  induction fuel with
  | zero =>
    intro s t ht
    simp [scanHeadsF] at ht
  | succ n ih =>
    intro s t ht
    cases hm : matchAt m s with
    | some tr =>
      obtain ⟨t0, r⟩ := tr
      simp only [scanHeadsF, hm] at ht
      have hs := matchAt_eq hm
      rcases List.mem_cons.mp ht with h1 | h2
      · exact ⟨[], r, by simp [hs, h1]⟩
      · refine infixOfSuffix (ih r.tail t h2) ?_
        exact (List.tail_suffix r).trans ⟨t0, hs.symm⟩
    | none =>
      cases s with
      | nil => simp [scanHeadsF, hm] at ht
      | cons c s2 =>
        simp only [scanHeadsF, hm] at ht
        refine infixOfSuffix (ih _ t ht) ?_
        exact (List.tail_suffix _).trans (List.dropWhile_suffix _)

/-- Trimming yields a contiguous segment of the original text. -/
theorem trimJS_infixOf (l : List Char) : trimJS l <:+: l := by
  obtain ⟨w, hw⟩ := List.dropWhile_suffix (l := l) jsWs
  obtain ⟨u, hu⟩ := List.dropWhile_suffix (l := (l.dropWhile jsWs).reverse) jsWs
  have h3 := congrArg List.reverse hu
  simp only [List.reverse_append, List.reverse_reverse] at h3
  refine ⟨w, u.reverse, ?_⟩
  calc w ++ trimJS l ++ u.reverse
      = w ++ (trimJS l ++ u.reverse) := by rw [List.append_assoc]
    _ = w ++ l.dropWhile jsWs := by
        rw [show trimJS l ++ u.reverse = l.dropWhile jsWs from h3]
    _ = l := hw

/-- C9 (amended): for every indexed document, the head is a prefix of the
content of length at most the 500 character budget, and every extracted
heading is a contiguous segment of the content (the trim of a pattern match);
a heading need not be a whole line of the content, since trailing whitespace
is stripped and a match can run past a newline. -/
theorem doc_invariants_c9 (path relPath content : List Char) :
    List.IsPrefix (mkDoc path relPath content).head content ∧
    (mkDoc path relPath content).head.length ≤ 500 ∧
    ∀ h ∈ (mkDoc path relPath content).headings, h <:+: content := by
  refine ⟨⟨content.drop 500, List.take_append_drop 500 content⟩, ?_, ?_⟩
  · simp only [mkDoc, List.length_take]
    exact min_le_left _ _
  · intro h hh
    simp only [mkDoc, matchHeadings, List.mem_map] at hh
    obtain ⟨t, htmem, rfl⟩ := hh
    exact (trimJS_infixOf t).trans (infix_of_mem_scanHeadsF _ _ content t htmem)

/-- C9 (counterexample): for the markdown content consisting of the line
hash-space-Title-space and then the line foo, the extracted heading has its
trailing space trimmed away, so it equals no line of the content: the headings
are not a subsequence of the content lines. -/
theorem doc_lines_c9_cx :
    (mkDoc ("a.md".toList) ("a.md".toList) ("# Title \nfoo".toList)).headings
      = ["# Title".toList] ∧
    ¬ List.Sublist
        (mkDoc ("a.md".toList) ("a.md".toList) ("# Title \nfoo".toList)).headings
        (linesOf ("# Title \nfoo".toList)) := by
  have hh : (mkDoc ("a.md".toList) ("a.md".toList)
      ("# Title \nfoo".toList)).headings = ["# Title".toList] := by decide
  refine ⟨hh, ?_⟩
  rw [hh]
  intro hs
  have hmem := List.singleton_sublist.mp hs
  revert hmem
  decide

/-- C9 (witness): the amended theorem applied to the counterexample document
and its extracted heading. -/
theorem doc_invariants_c9_witness :
    "# Title".toList ∈
      (mkDoc ("a.md".toList) ("a.md".toList) ("# Title \nfoo".toList)).headings ∧
    "# Title".toList <:+: ("# Title \nfoo".toList) :=
  ⟨by decide,
   (doc_invariants_c9 ("a.md".toList) ("a.md".toList) ("# Title \nfoo".toList)).2.2
     ("# Title".toList) (by decide)⟩

/-! Claim C8: outline round trip. -/

/-- Decomposition of the rendered block around the relative path. -/
theorem outlineXml_decomp (doc : Doc) (fullPath : List Char) :
    outlineXml doc fullPath =
      "<document>\n  <path>".toList ++ (doc.relPath ++ outlineRest doc fullPath) := by
  simp [outlineXml, outlineRest, List.append_assoc]

/-- Scanning for the opening path tag skips exactly the fixed block preamble,
whose only occurrence of the tag is the one that ends it. -/
theorem afterFirst_open (t : List Char) :
    afterFirst ("<path>".toList) ("<document>\n  <path>".toList ++ t) = some t := by
  rw [show ("<document>\n  <path>".toList) =
      ['<', 'd', 'o', 'c', 'u', 'm', 'e', 'n', 't', '>', '\n', ' ', ' ',
       '<', 'p', 'a', 't', 'h', '>'] from rfl,
    show ("<path>".toList) = ['<', 'p', 'a', 't', 'h', '>'] from rfl]
  simp [afterFirst]

/-- Text after the path starts with the closing path tag. -/
theorem outlineRest_startsClose (doc : Doc) (fullPath : List Char) :
    ("</path>".toList).isPrefixOf (outlineRest doc fullPath) = true := by
  rw [outlineRest,
    show ("</path>\n  <fullPath>".toList) =
      ['<', '/', 'p', 'a', 't', 'h', '>', '\n', ' ', ' ',
       '<', 'f', 'u', 'l', 'l', 'P', 'a', 't', 'h', '>'] from rfl,
    show ("</path>".toList) = ['<', '/', 'p', 'a', 't', 'h', '>'] from rfl]
  simp [List.isPrefixOf]

/-- No proper suffix of the closing path tag begins the text after the path,
so an occurrence of the closing tag cannot straddle the boundary between the
relative path and the rest of the block. -/
theorem outlineRest_straddle (doc : Doc) (fullPath : List Char) :
    ∀ k, 0 < k → k < ("</path>".toList).length →
      (("</path>".toList).drop k).isPrefixOf (outlineRest doc fullPath) = false := by
  intro k h1 h2
  have h7 : k < 7 := by simpa using h2
  rw [outlineRest,
    show ("</path>\n  <fullPath>".toList) =
      ['<', '/', 'p', 'a', 't', 'h', '>', '\n', ' ', ' ',
       '<', 'f', 'u', 'l', 'l', 'P', 'a', 't', 'h', '>'] from rfl,
    show ("</path>".toList) = ['<', '/', 'p', 'a', 't', 'h', '>'] from rfl]
  interval_cases k <;> simp [List.isPrefixOf]

/-- If the pattern is a prefix of the appended text, does not occur inside the
leading text, and no proper suffix of the leading text begins an occurrence
that completes in the appended text, then the first occurrence is exactly at
the junction. -/
theorem beforeFirst_append (pat post : List Char) (hpat : pat ≠ [])
    (hpost : pat.isPrefixOf post = true) :
    ∀ s : List Char,
      (∀ i, i < s.length → pat.isPrefixOf (s.drop i ++ post) = false) →
      beforeFirst pat (s ++ post) = some s := by
  intro s
  induction s with
  | nil =>
    intro _
    cases post with
    | nil =>
      cases pat with
      | nil => exact absurd rfl hpat
      | cons c cs => simp [List.isPrefixOf] at hpost
    | cons c cs =>
      rw [List.nil_append]
      simp [beforeFirst, hpost]
  | cons c s2 ih =>
    intro H
    have h0 : pat.isPrefixOf (c :: (s2 ++ post)) = false := by
      have h1 := H 0 (by simp)
      simpa using h1
    rw [List.cons_append]
    simp only [beforeFirst, h0]
    rw [ih (fun i hi => by
      have h2 := H (i + 1) (by simpa using Nat.succ_lt_succ hi)
      simpa using h2)]
    simp

/-- A pattern that does not occur inside the leading text and cannot straddle
the junction is not a prefix at any position strictly inside the leading
text. -/
theorem no_occurrence (pat post s : List Char)
    (hstr : ∀ k, 0 < k → k < pat.length → (pat.drop k).isPrefixOf post = false)
    (hinf : ¬ pat <:+: s) :
    ∀ i, i < s.length → pat.isPrefixOf (s.drop i ++ post) = false := by
  intro i hi
  by_contra hc
  have hc2 : pat.isPrefixOf (s.drop i ++ post) = true := by
    cases hb : pat.isPrefixOf (s.drop i ++ post) with
    | true => rfl
    | false => exact absurd hb hc
  have hp : pat <+: (s.drop i ++ post) := List.isPrefixOf_iff_prefix.mp hc2
  by_cases hlen : pat.length ≤ (s.drop i).length
  · have hpt : pat <+: s.drop i :=
      List.prefix_of_prefix_length_le hp ⟨post, rfl⟩ hlen
    obtain ⟨w, hw⟩ := hpt
    refine hinf ⟨s.take i, w, ?_⟩
    calc s.take i ++ pat ++ w = s.take i ++ (pat ++ w) := by rw [List.append_assoc]
      _ = s.take i ++ s.drop i := by rw [hw]
      _ = s := List.take_append_drop i s
  · push_neg at hlen
    have hti : 0 < (s.drop i).length := by
      rw [List.length_drop]
      omega
    have htp : (s.drop i) <+: pat :=
      List.prefix_of_prefix_length_le ⟨post, rfl⟩ hp (le_of_lt hlen)
    obtain ⟨w, hw⟩ := htp
    have hwd : w = pat.drop (s.drop i).length := by
      rw [← hw, List.drop_left]
    have hwp : w <+: post := by
      obtain ⟨z, hz⟩ := hp
      rw [← hw, List.append_assoc] at hz
      exact ⟨z, List.append_cancel_left hz⟩
    have hb : (pat.drop (s.drop i).length).isPrefixOf post = true :=
      List.isPrefixOf_iff_prefix.mpr (hwd ▸ hwp)
    rw [hstr (s.drop i).length hti hlen] at hb
    exact absurd hb (by simp)

/-- C8 (amended): for every document whose relative path does not contain the
literal closing path tag, rendering with the Outline Encoder and then reading
the text between the first opening path tag and the following closing path tag
returns the relative path exactly. The encoder escapes nothing, so a relative
path containing the closing tag text (legal on a filesystem) breaks the round
trip. -/
theorem roundTrip_c8 (doc : Doc) (fullPath : List Char)
    (h : ¬ ("</path>".toList <:+: doc.relPath)) :
    extractPathTag (outlineXml doc fullPath) = some doc.relPath := by
  unfold extractPathTag
  rw [outlineXml_decomp, afterFirst_open]
  exact beforeFirst_append _ _ (by decide) (outlineRest_startsClose doc fullPath)
    doc.relPath (no_occurrence _ _ _ (outlineRest_straddle doc fullPath) h)

/-- C8 (counterexample): on a legal relative path containing the closing path
tag text, extraction stops at the embedded tag and returns a proper prefix of
the path, so the round trip fails. -/
theorem roundTrip_c8_cx :
    extractPathTag (outlineXml docBad []) = some ("a".toList) ∧
    some ("a".toList) ≠ some (docBad.relPath) :=
  ⟨by decide, by decide⟩

/-- C8 (witness): the amended theorem applied to a clean document. -/
theorem roundTrip_c8_witness :
    ¬ ("</path>".toList <:+: ("a.md".toList)) ∧
    extractPathTag (outlineXml docA ("/docs/a.md".toList)) = some ("a.md".toList) :=
  ⟨by decide, roundTrip_c8 docA ("/docs/a.md".toList) (by decide)⟩
